import Mathlib

/-!
# Verification of the range-idea library

A shallow embedding of `src/lib.rs`: three lazy range generators
(`ExclusiveRange`, `InclusiveRange`, `UnboundedRange`) implementing Rust's
`Iterator::next`, and the `StepBy` capability (`step_by`).

The Rust code is generic over `T : PartialOrd + Add<S, Output = T> + Copy`
and `S : Copy`.  We model this pair of trait bounds as an explicit
operations record `NumOps T S` carrying `pcmp` (Rust's
`PartialOrd::partial_cmp`, returning `Option Ordering` so that two values
may be incomparable, as with floating-point NaN) and `add`
(`Add::add : T → S → T`).  `lt`/`le` are derived from `pcmp` exactly as in
Rust's `PartialOrd` provided methods.

`Iterator::next(&mut self)` mutates the receiver, so each `next` is
embedded as a state-passing function `R → Option T × R`.  `nthPull`,
`stateAfter` and `runPulls` drive such a function for several pulls.
-/

set_option autoImplicit false

/-- The trait-bound context of the Rust impls: a partial comparison
(`PartialOrd::partial_cmp`) and a heterogeneous addition
(`Add<S, Output = T>`). -/
structure NumOps (T S : Type) where
  pcmp : T → T → Option Ordering
  add : T → S → T

/-- Rust `PartialOrd::lt`: `matches!(partial_cmp(a, b), Some(Less))`. -/
def NumOps.lt {T S : Type} (ops : NumOps T S) (a b : T) : Bool :=
  match ops.pcmp a b with
  | some Ordering.lt => true
  | _ => false

/-- Rust `PartialOrd::le`: `matches!(partial_cmp(a, b), Some(Less | Equal))`. -/
def NumOps.le {T S : Type} (ops : NumOps T S) (a b : T) : Bool :=
  match ops.pcmp a b with
  | some Ordering.lt => true
  | some Ordering.eq => true
  | _ => false

/-- `pub struct ExclusiveRange<T, S> { start: T, stop: T, step: S }`. -/
structure ExclusiveRange (T S : Type) where
  start : T
  stop : T
  step : S
deriving DecidableEq

/-- `pub struct InclusiveRange<T, S> { start: T, stop: T, step: S }`. -/
structure InclusiveRange (T S : Type) where
  start : T
  stop : T
  step : S
deriving DecidableEq

/-- `pub struct UnboundedRange<T, S> { start: T, step: S }`. -/
structure UnboundedRange (T S : Type) where
  start : T
  step : S
deriving DecidableEq

/-- `Iterator::next` for `ExclusiveRange`: if `start < stop`, capture `start`,
advance `start := start + step`, return the captured value; else `None`. -/
def ExclusiveRange.next {T S : Type} (ops : NumOps T S) (r : ExclusiveRange T S) :
    Option T × ExclusiveRange T S :=
  if ops.lt r.start r.stop then
    (some r.start, { r with start := ops.add r.start r.step })
  else
    (none, r)

/-- `Iterator::next` for `InclusiveRange`: the guard is `start <= stop`. -/
def InclusiveRange.next {T S : Type} (ops : NumOps T S) (r : InclusiveRange T S) :
    Option T × InclusiveRange T S :=
  if ops.le r.start r.stop then
    (some r.start, { r with start := ops.add r.start r.step })
  else
    (none, r)

/-- `Iterator::next` for `UnboundedRange`: unconditionally capture `start`,
advance, and return `Some`. -/
def UnboundedRange.next {T S : Type} (ops : NumOps T S) (r : UnboundedRange T S) :
    Option T × UnboundedRange T S :=
  (some r.start, { r with start := ops.add r.start r.step })

/-- `StepBy::step_by` for `ExclusiveRange`:
`ExclusiveRange { step: step, ..self }`. -/
def ExclusiveRange.step_by {T S : Type} (r : ExclusiveRange T S) (step : S) :
    ExclusiveRange T S :=
  { r with step := step }

/-- `StepBy::step_by` for `InclusiveRange`:
`InclusiveRange { step: step, ..self }`. -/
def InclusiveRange.step_by {T S : Type} (r : InclusiveRange T S) (step : S) :
    InclusiveRange T S :=
  { r with step := step }

/-- `StepBy::step_by` for `UnboundedRange`:
`UnboundedRange { step: step, ..self }`. -/
def UnboundedRange.step_by {T S : Type} (r : UnboundedRange T S) (step : S) :
    UnboundedRange T S :=
  { r with step := step }

/-- The result of the `n`-th pull (0-indexed) on a stateful iterator given
by `next`. -/
def nthPull {R T : Type} (next : R → Option T × R) : Nat → R → Option T
  | 0, r => (next r).1
  | n + 1, r => nthPull next n (next r).2

/-- The iterator state after `n` pulls. -/
def stateAfter {R T : Type} (next : R → Option T × R) : Nat → R → R
  | 0, r => r
  | n + 1, r => stateAfter next n (next r).2

/-- The list of results of the first `n` pulls, in order. -/
def runPulls {R T : Type} (next : R → Option T × R) : Nat → R → List (Option T)
  | 0, _ => []
  | n + 1, r => (next r).1 :: runPulls next n (next r).2

/-- The concrete instantiation used by the repository's integer tests
(`i32`, overflow out of scope): total comparison and ordinary addition on
`Int`. -/
def intPcmp (a b : Int) : Option Ordering :=
  if a < b then some Ordering.lt
  else if a = b then some Ordering.eq
  else some Ordering.gt

/-- `NumOps` for `T = S = Int`. -/
def intOps : NumOps Int Int :=
  ⟨intPcmp, fun a b => a + b⟩

/-- A numeric domain with incomparable elements, modelling a
floating-point-like type where `none` plays the role of NaN:
`partial_cmp` returns no `Ordering` whenever either operand is `none`. -/
def nanPcmp (a b : Option Int) : Option Ordering :=
  match a, b with
  | some x, some y => intPcmp x y
  | _, _ => none

/-- Addition on the NaN-like domain: `none` is absorbing. -/
def nanAdd (a b : Option Int) : Option Int :=
  match a, b with
  | some x, some y => some (x + y)
  | _, _ => none

/-- `NumOps` for the NaN-like domain. -/
def nanOps : NumOps (Option Int) (Option Int) :=
  ⟨nanPcmp, nanAdd⟩

/-- Panic-tracking embedding of `ExclusiveRange`'s `next`: the same
computation in `Except`, where a Rust panic or abort would surface as
`Except.error`.  The body uses only comparison and addition, neither of
which can fail here (numeric overflow is delegated to `NumOps.add` and is
out of scope per the spec), so no `error` branch occurs. -/
def ExclusiveRange.nextE {T S : Type} (ops : NumOps T S) (r : ExclusiveRange T S) :
    Except String (Option T × ExclusiveRange T S) :=
  if ops.lt r.start r.stop then
    Except.ok (some r.start, { r with start := ops.add r.start r.step })
  else
    Except.ok (none, r)

/-- Panic-tracking embedding of `InclusiveRange`'s `next`. -/
def InclusiveRange.nextE {T S : Type} (ops : NumOps T S) (r : InclusiveRange T S) :
    Except String (Option T × InclusiveRange T S) :=
  if ops.le r.start r.stop then
    Except.ok (some r.start, { r with start := ops.add r.start r.step })
  else
    Except.ok (none, r)

/-- Panic-tracking embedding of `UnboundedRange`'s `next`. -/
def UnboundedRange.nextE {T S : Type} (ops : NumOps T S) (r : UnboundedRange T S) :
    Except String (Option T × UnboundedRange T S) :=
  Except.ok (some r.start, { r with start := ops.add r.start r.step })

/-- Panic-tracking embedding of `step_by` for `ExclusiveRange` (a plain
struct-update expression in the source; nothing can fail). -/
def ExclusiveRange.step_byE {T S : Type} (r : ExclusiveRange T S) (step : S) :
    Except String (ExclusiveRange T S) :=
  Except.ok { r with step := step }

/-- Panic-tracking embedding of `step_by` for `InclusiveRange`. -/
def InclusiveRange.step_byE {T S : Type} (r : InclusiveRange T S) (step : S) :
    Except String (InclusiveRange T S) :=
  Except.ok { r with step := step }

/-- Panic-tracking embedding of `step_by` for `UnboundedRange`. -/
def UnboundedRange.step_byE {T S : Type} (r : UnboundedRange T S) (step : S) :
    Except String (UnboundedRange T S) :=
  Except.ok { r with step := step }

/-! ## Basic facts about the integer instantiation -/

theorem intOps_pcmp (a b : Int) : intOps.pcmp a b = intPcmp a b := rfl

theorem intOps_lt_iff (a b : Int) : intOps.lt a b = true ↔ a < b := by
  unfold NumOps.lt
  rw [intOps_pcmp]
  unfold intPcmp
  split_ifs with h1 h2 <;> simp [h1]

theorem intOps_le_iff (a b : Int) : intOps.le a b = true ↔ a ≤ b := by
  unfold NumOps.le
  rw [intOps_pcmp]
  unfold intPcmp
  split_ifs with h1 h2
  · simp [le_of_lt h1]
  · simp [le_of_eq h2]
  · simp
    omega

theorem intOps_add (a b : Int) : intOps.add a b = a + b := rfl

theorem intOps_lt_false_iff (a b : Int) : intOps.lt a b = false ↔ ¬a < b := by
  rw [← intOps_lt_iff a b]
  cases intOps.lt a b <;> simp

theorem intOps_le_false_iff (a b : Int) : intOps.le a b = false ↔ ¬a ≤ b := by
  rw [← intOps_le_iff a b]
  cases intOps.le a b <;> simp

/-! ## Structural lemmas about single pulls -/

theorem exclusive_next_none_fixed {T S : Type} (ops : NumOps T S) (r : ExclusiveRange T S)
    (h : (ExclusiveRange.next ops r).1 = none) : ExclusiveRange.next ops r = (none, r) := by
  cases hq : ops.lt r.start r.stop with
  | true => simp [ExclusiveRange.next, hq] at h
  | false => simp [ExclusiveRange.next, hq]

theorem inclusive_next_none_fixed {T S : Type} (ops : NumOps T S) (r : InclusiveRange T S)
    (h : (InclusiveRange.next ops r).1 = none) : InclusiveRange.next ops r = (none, r) := by
  cases hq : ops.le r.start r.stop with
  | true => simp [InclusiveRange.next, hq] at h
  | false => simp [InclusiveRange.next, hq]

theorem exclusive_next_stop {T S : Type} (ops : NumOps T S) (r : ExclusiveRange T S) :
    ((ExclusiveRange.next ops r).2).stop = r.stop := by
  unfold ExclusiveRange.next
  split <;> rfl

/-- Once a pull leaves the state unchanged and returns `none`, every later
pull does the same: the state is a fixed point and all results are `none`. -/
theorem nthPull_of_fixed {R T : Type} (next : R → Option T × R) (r : R)
    (h : next r = (none, r)) :
    ∀ n : Nat, nthPull next n r = none ∧ stateAfter next n r = r := by
  intro n
  induction n with
  | zero => exact ⟨by simp [nthPull, h], rfl⟩
  | succ n ih =>
      have h2 : (next r).2 = r := by rw [h]
      refine ⟨?_, ?_⟩
      · simp only [nthPull, h2]
        exact ih.1
      · simp only [stateAfter, h2]
        exact ih.2

/-! ## Arithmetic characterization of the integer pulls -/

theorem exclusive_nth_int (b s : Int) (hs : 0 < s) :
    ∀ (n : Nat) (a : Int),
      nthPull (ExclusiveRange.next intOps) n ⟨a, b, s⟩ =
        if a + n * s < b then some (a + n * s) else none := by
  intro n
  induction n with
  | zero =>
      intro a
      by_cases h : a < b
      · have hl : intOps.lt a b = true := (intOps_lt_iff a b).mpr h
        simp [nthPull, ExclusiveRange.next, hl, h]
      · have hl : intOps.lt a b = false := (intOps_lt_false_iff a b).mpr h
        simp [nthPull, ExclusiveRange.next, hl, h]
  | succ n ih =>
      intro a
      by_cases h : a < b
      · have hl : intOps.lt a b = true := (intOps_lt_iff a b).mpr h
        have hstep : nthPull (ExclusiveRange.next intOps) (n + 1) ⟨a, b, s⟩ =
            nthPull (ExclusiveRange.next intOps) n ⟨a + s, b, s⟩ := by
          simp [nthPull, ExclusiveRange.next, hl, intOps_add]
        rw [hstep, ih (a + s),
          show a + s + (n : Int) * s = a + ((n + 1 : Nat) : Int) * s by push_cast; ring]
      · have hl : intOps.lt a b = false := (intOps_lt_false_iff a b).mpr h
        have hfix : ExclusiveRange.next intOps ⟨a, b, s⟩ = (none, ⟨a, b, s⟩) := by
          simp [ExclusiveRange.next, hl]
        have hstep : nthPull (ExclusiveRange.next intOps) (n + 1) ⟨a, b, s⟩ =
            nthPull (ExclusiveRange.next intOps) n ⟨a, b, s⟩ := by
          simp only [nthPull, hfix]
        have hge : b ≤ a := not_lt.mp h
        have hn : (0 : Int) ≤ (n : Int) * s := mul_nonneg (Int.natCast_nonneg n) (le_of_lt hs)
        have hn1 : (0 : Int) ≤ ((n + 1 : Nat) : Int) * s :=
          mul_nonneg (Int.natCast_nonneg (n + 1)) (le_of_lt hs)
        rw [hstep, ih a, if_neg (by linarith), if_neg (by linarith)]

theorem inclusive_nth_int (b s : Int) (hs : 0 < s) :
    ∀ (n : Nat) (a : Int),
      nthPull (InclusiveRange.next intOps) n ⟨a, b, s⟩ =
        if a + n * s ≤ b then some (a + n * s) else none := by
  intro n
  induction n with
  | zero =>
      intro a
      by_cases h : a ≤ b
      · have hl : intOps.le a b = true := (intOps_le_iff a b).mpr h
        simp [nthPull, InclusiveRange.next, hl, h]
      · have hl : intOps.le a b = false := (intOps_le_false_iff a b).mpr h
        simp [nthPull, InclusiveRange.next, hl, h]
  | succ n ih =>
      intro a
      by_cases h : a ≤ b
      · have hl : intOps.le a b = true := (intOps_le_iff a b).mpr h
        have hstep : nthPull (InclusiveRange.next intOps) (n + 1) ⟨a, b, s⟩ =
            nthPull (InclusiveRange.next intOps) n ⟨a + s, b, s⟩ := by
          simp [nthPull, InclusiveRange.next, hl, intOps_add]
        rw [hstep, ih (a + s),
          show a + s + (n : Int) * s = a + ((n + 1 : Nat) : Int) * s by push_cast; ring]
      · have hl : intOps.le a b = false := (intOps_le_false_iff a b).mpr h
        have hfix : InclusiveRange.next intOps ⟨a, b, s⟩ = (none, ⟨a, b, s⟩) := by
          simp [InclusiveRange.next, hl]
        have hstep : nthPull (InclusiveRange.next intOps) (n + 1) ⟨a, b, s⟩ =
            nthPull (InclusiveRange.next intOps) n ⟨a, b, s⟩ := by
          simp only [nthPull, hfix]
        have hgt : b < a := not_le.mp h
        have hn : (0 : Int) ≤ (n : Int) * s := mul_nonneg (Int.natCast_nonneg n) (le_of_lt hs)
        have hn1 : (0 : Int) ≤ ((n + 1 : Nat) : Int) * s :=
          mul_nonneg (Int.natCast_nonneg (n + 1)) (le_of_lt hs)
        rw [hstep, ih a, if_neg (by linarith), if_neg (by linarith)]

theorem unbounded_nth_int (s : Int) :
    ∀ (n : Nat) (a : Int),
      nthPull (UnboundedRange.next intOps) n ⟨a, s⟩ = some (a + n * s) := by
  intro n
  induction n with
  | zero =>
      intro a
      simp [nthPull, UnboundedRange.next]
  | succ n ih =>
      intro a
      have hstep : nthPull (UnboundedRange.next intOps) (n + 1) ⟨a, s⟩ =
          nthPull (UnboundedRange.next intOps) n ⟨a + s, s⟩ := by
        simp [nthPull, UnboundedRange.next, intOps_add]
      rw [hstep, ih (a + s)]
      congr 1
      push_cast
      ring

/-- Every value an `ExclusiveRange` ever yields passed the `<` guard
against the (never-changing) `stop` bound. -/
theorem exclusive_nth_some_lt {T S : Type} (ops : NumOps T S) :
    ∀ (n : Nat) (r : ExclusiveRange T S) (v : T),
      nthPull (ExclusiveRange.next ops) n r = some v → ops.lt v r.stop = true := by
  intro n
  induction n with
  | zero =>
      intro r v h
      cases hq : ops.lt r.start r.stop with
      | true =>
          simp [nthPull, ExclusiveRange.next, hq] at h
          rw [← h]
          exact hq
      | false => simp [nthPull, ExclusiveRange.next, hq] at h
  | succ n ih =>
      intro r v h
      simp only [nthPull] at h
      have := ih _ _ h
      rwa [exclusive_next_stop] at this

/-! ## The claims -/

/-- C1: for every `start`, `stop` and positive integer `step` with
`start < stop`, `ExclusiveRange {start, stop, step}` yields exactly
`start, start + step, start + 2*step, ...` for as long as each value is
`< stop`, and every pull after that returns `none`: the `n`-th pull
returns `some (start + n*step)` when that value is `< stop` and `none`
otherwise; e.g. `start = 0, stop = 3, step = 1` yields `[0, 1, 2]` then
`none`. -/
theorem claim_C1 (start stop step : Int) (hstep : 0 < step) (hlt : start < stop) (n : Nat) :
    (nthPull (ExclusiveRange.next intOps) n ⟨start, stop, step⟩ =
      if start + n * step < stop then some (start + n * step) else none) ∧
    runPulls (ExclusiveRange.next intOps) 4 ⟨0, 3, 1⟩ = [some 0, some 1, some 2, none] :=
  ⟨exclusive_nth_int stop step hstep n start, by decide⟩

theorem claim_C1_witness :
    (0 : Int) < 1 ∧ (0 : Int) < 3 ∧
      nthPull (ExclusiveRange.next intOps) 2 ⟨0, 3, 1⟩ = some 2 := by
  refine ⟨by decide, by decide, ?_⟩
  have h := (claim_C1 0 3 1 (by decide) (by decide) 2).1
  simpa using h

/-- C2: for `InclusiveRange` a value exactly equal to `stop` IS yielded
(the guard is `start <= stop`): `InclusiveRange {0, 3, 1}` yields
`[0, 1, 2, 3]` and then `none` on every further pull. -/
theorem claim_C2 (n : Nat) :
    runPulls (InclusiveRange.next intOps) 5 ⟨0, 3, 1⟩ =
      [some 0, some 1, some 2, some 3, none] ∧
    (4 ≤ n → nthPull (InclusiveRange.next intOps) n ⟨0, 3, 1⟩ = none) := by
  refine ⟨by decide, fun hn => ?_⟩
  rw [inclusive_nth_int 3 1 (by decide) n 0]
  have h4 : (4 : Int) ≤ (n : Int) := by exact_mod_cast hn
  rw [if_neg (by linarith)]

theorem claim_C2_witness :
    4 ≤ 6 ∧ nthPull (InclusiveRange.next intOps) 6 ⟨0, 3, 1⟩ = none :=
  ⟨by decide, (claim_C2 6).2 (by decide)⟩

/-- C3: every pull on an `UnboundedRange` returns a value: the `n`-th
pull on `UnboundedRange {a, s}` returns `some (a + n*s)`, never `none`;
in particular `UnboundedRange {0, 1}` pulled 1005 times yields
`0..1004` in order. -/
theorem claim_C3 (a s : Int) (n : Nat) :
    nthPull (UnboundedRange.next intOps) n ⟨a, s⟩ = some (a + n * s) ∧
    (n ≤ 1004 → nthPull (UnboundedRange.next intOps) n ⟨0, 1⟩ = some (n : Int)) := by
  refine ⟨unbounded_nth_int s n a, fun _ => ?_⟩
  have h := unbounded_nth_int 1 n 0
  simpa using h

theorem claim_C3_witness :
    1004 ≤ 1004 ∧ nthPull (UnboundedRange.next intOps) 1004 ⟨0, 1⟩ = some 1004 := by
  exact ⟨by decide, (claim_C3 0 1 1004).2 (by decide)⟩

/-- C4: exhaustion is terminal for both bounded variants: once a pull
returns `none`, every subsequent pull also returns `none`, and the state
(in particular the `start` cursor) is never mutated again. -/
theorem claim_C4 {T S : Type} (ops : NumOps T S) (re : ExclusiveRange T S)
    (ri : InclusiveRange T S) (n : Nat) :
    ((ExclusiveRange.next ops re).1 = none →
      nthPull (ExclusiveRange.next ops) n re = none ∧
        stateAfter (ExclusiveRange.next ops) n re = re) ∧
    ((InclusiveRange.next ops ri).1 = none →
      nthPull (InclusiveRange.next ops) n ri = none ∧
        stateAfter (InclusiveRange.next ops) n ri = ri) :=
  ⟨fun h => nthPull_of_fixed _ _ (exclusive_next_none_fixed ops re h) n,
   fun h => nthPull_of_fixed _ _ (inclusive_next_none_fixed ops ri h) n⟩

theorem claim_C4_witness :
    (ExclusiveRange.next intOps ⟨3, 3, 1⟩).1 = none ∧
    (InclusiveRange.next intOps ⟨4, 3, 1⟩).1 = none ∧
    nthPull (ExclusiveRange.next intOps) 2 ⟨3, 3, 1⟩ = none ∧
    stateAfter (InclusiveRange.next intOps) 2 ⟨4, 3, 1⟩ = ⟨4, 3, 1⟩ :=
  ⟨by decide, by decide,
   ((claim_C4 intOps ⟨3, 3, 1⟩ ⟨4, 3, 1⟩ 2).1 (by decide)).1,
   ((claim_C4 intOps ⟨3, 3, 1⟩ ⟨4, 3, 1⟩ 2).2 (by decide)).2⟩

/-- C5: `step_by` keeps `start` (and `stop`, where present) and replaces
`step` with the new value, for all three variants; consequently
`ExclusiveRange {0, 5, 1}` re-stepped to 2 yields `[0, 2, 4]` then
`none` forever. -/
theorem claim_C5 {T S : Type} (re : ExclusiveRange T S) (ri : InclusiveRange T S)
    (ru : UnboundedRange T S) (s : S) (n : Nat) :
    ((re.step_by s).start = re.start ∧ (re.step_by s).stop = re.stop ∧
      (re.step_by s).step = s) ∧
    ((ri.step_by s).start = ri.start ∧ (ri.step_by s).stop = ri.stop ∧
      (ri.step_by s).step = s) ∧
    ((ru.step_by s).start = ru.start ∧ (ru.step_by s).step = s) ∧
    runPulls (ExclusiveRange.next intOps) 4
        ((⟨0, 5, 1⟩ : ExclusiveRange Int Int).step_by 2) =
      [some 0, some 2, some 4, none] ∧
    (3 ≤ n → nthPull (ExclusiveRange.next intOps) n
        ((⟨0, 5, 1⟩ : ExclusiveRange Int Int).step_by 2) = none) := by
  refine ⟨⟨rfl, rfl, rfl⟩, ⟨rfl, rfl, rfl⟩, ⟨rfl, rfl⟩, by decide, fun hn => ?_⟩
  show nthPull (ExclusiveRange.next intOps) n ⟨0, 5, 2⟩ = none
  rw [exclusive_nth_int 5 2 (by decide) n 0]
  have h3 : (3 : Int) ≤ (n : Int) := by exact_mod_cast hn
  rw [if_neg (by linarith)]

theorem claim_C5_witness :
    3 ≤ 7 ∧ nthPull (ExclusiveRange.next intOps) 7
        ((⟨0, 5, 1⟩ : ExclusiveRange Int Int).step_by 2) = none :=
  ⟨by decide,
   (claim_C5 (⟨0, 5, 1⟩ : ExclusiveRange Int Int) ⟨0, 3, 1⟩ ⟨0, 1⟩ 2 7).2.2.2.2 (by decide)⟩

/-- C6: invariant of `ExclusiveRange`: every yielded value satisfies
`v < stop` (the bound never changes, so this holds at the time of yield);
and if `start >= stop` at construction, zero values are produced. -/
theorem claim_C6 (r : ExclusiveRange Int Int) (n : Nat) (v : Int) :
    (nthPull (ExclusiveRange.next intOps) n r = some v → v < r.stop) ∧
    (r.stop ≤ r.start → nthPull (ExclusiveRange.next intOps) n r = none) := by
  constructor
  · intro h
    exact (intOps_lt_iff v r.stop).mp (exclusive_nth_some_lt intOps n r v h)
  · intro h
    have hl : intOps.lt r.start r.stop = false :=
      (intOps_lt_false_iff _ _).mpr (not_lt.mpr h)
    have hfix : ExclusiveRange.next intOps r = (none, r) := by
      simp [ExclusiveRange.next, hl]
    exact (nthPull_of_fixed _ _ hfix n).1

theorem claim_C6_witness :
    ((3 : Int) ≤ 5 ∧ nthPull (ExclusiveRange.next intOps) 2 ⟨5, 3, 1⟩ = none) ∧
    (nthPull (ExclusiveRange.next intOps) 1 ⟨0, 3, 1⟩ = some 1 ∧ (1 : Int) < 3) :=
  ⟨⟨by decide, (claim_C6 ⟨5, 3, 1⟩ 2 0).2 (by decide)⟩,
   ⟨by decide, (claim_C6 ⟨0, 3, 1⟩ 1 1).1 (by decide)⟩⟩

/-- C7: a zero step on a not-yet-exhausted `ExclusiveRange` never
terminates and is not an error: with `start < stop` and `step = 0` every
pull yields `some start` (so `ExclusiveRange {0, 3, 0}` yields `some 0`
forever). -/
theorem claim_C7 (a b : Int) (h : a < b) (n : Nat) :
    nthPull (ExclusiveRange.next intOps) n ⟨a, b, 0⟩ = some a := by
  have hl : intOps.lt a b = true := (intOps_lt_iff a b).mpr h
  induction n with
  | zero => simp [nthPull, ExclusiveRange.next, hl]
  | succ n ih =>
      have hstep : nthPull (ExclusiveRange.next intOps) (n + 1) ⟨a, b, 0⟩ =
          nthPull (ExclusiveRange.next intOps) n ⟨a, b, 0⟩ := by
        simp [nthPull, ExclusiveRange.next, hl, intOps_add]
      rw [hstep]
      exact ih

theorem claim_C7_witness :
    (0 : Int) < 3 ∧ nthPull (ExclusiveRange.next intOps) 9 ⟨0, 3, 0⟩ = some 0 :=
  ⟨by decide, claim_C7 0 3 (by decide) 9⟩

/-- C8: all operations are total: for every input, the panic-tracking
embeddings of the three `next` implementations and of the three
`step_by` implementations return `Except.ok` of exactly the pure result,
never an error; the only failure-like outcome of a pull is the ordinary
`none` inside the returned value. -/
theorem claim_C8 {T S : Type} (ops : NumOps T S) (re : ExclusiveRange T S)
    (ri : InclusiveRange T S) (ru : UnboundedRange T S) (s : S) :
    ExclusiveRange.nextE ops re = Except.ok (ExclusiveRange.next ops re) ∧
    InclusiveRange.nextE ops ri = Except.ok (InclusiveRange.next ops ri) ∧
    UnboundedRange.nextE ops ru = Except.ok (UnboundedRange.next ops ru) ∧
    re.step_byE s = Except.ok (re.step_by s) ∧
    ri.step_byE s = Except.ok (ri.step_by s) ∧
    ru.step_byE s = Except.ok (ru.step_by s) := by
  refine ⟨?_, ?_, rfl, rfl, rfl, rfl⟩
  · by_cases h : ops.lt re.start re.stop = true <;>
      simp [ExclusiveRange.nextE, ExclusiveRange.next, h]
  · by_cases h : ops.le ri.start ri.stop = true <;>
      simp [InclusiveRange.nextE, InclusiveRange.next, h]

/-- C9: because the guards use a partial comparison, when `start` and
`stop` are incomparable (`partial_cmp` returns nothing, as with NaN) both
bounded variants are exhausted from the outset: the very first pull and
every later pull returns `none` and the state is never mutated. -/
theorem claim_C9 {T S : Type} (ops : NumOps T S) (re : ExclusiveRange T S)
    (ri : InclusiveRange T S) (n : Nat) :
    (ops.pcmp re.start re.stop = none →
      nthPull (ExclusiveRange.next ops) n re = none ∧
        stateAfter (ExclusiveRange.next ops) n re = re) ∧
    (ops.pcmp ri.start ri.stop = none →
      nthPull (InclusiveRange.next ops) n ri = none ∧
        stateAfter (InclusiveRange.next ops) n ri = ri) := by
  constructor
  · intro h
    have hl : ops.lt re.start re.stop = false := by
      unfold NumOps.lt
      rw [h]
    have hfix : ExclusiveRange.next ops re = (none, re) := by
      simp [ExclusiveRange.next, hl]
    exact nthPull_of_fixed _ _ hfix n
  · intro h
    have hl : ops.le ri.start ri.stop = false := by
      unfold NumOps.le
      rw [h]
    have hfix : InclusiveRange.next ops ri = (none, ri) := by
      simp [InclusiveRange.next, hl]
    exact nthPull_of_fixed _ _ hfix n

theorem claim_C9_witness :
    (nanOps.pcmp none (some 3) = none ∧
      nthPull (ExclusiveRange.next nanOps) 0 ⟨none, some 3, some 1⟩ = none) ∧
    (nanOps.pcmp (some 0) none = none ∧
      stateAfter (InclusiveRange.next nanOps) 2 ⟨some 0, none, some 1⟩ =
        ⟨some 0, none, some 1⟩) :=
  ⟨⟨rfl, ((claim_C9 nanOps ⟨none, some 3, some 1⟩ ⟨some 0, none, some 1⟩ 0).1 rfl).1⟩,
   ⟨rfl, ((claim_C9 nanOps ⟨none, some 3, some 1⟩ ⟨some 0, none, some 1⟩ 2).2 rfl).2⟩⟩

/-- C10: step rebinding is last-write-wins and ignores the existing step:
for every range of each variant, `(r.step_by s1).step_by s2 =
r.step_by s2`, and rebinding to the current step is the identity. -/
theorem claim_C10 {T S : Type} (re : ExclusiveRange T S) (ri : InclusiveRange T S)
    (ru : UnboundedRange T S) (s1 s2 : S) :
    ((re.step_by s1).step_by s2 = re.step_by s2 ∧ re.step_by re.step = re) ∧
    ((ri.step_by s1).step_by s2 = ri.step_by s2 ∧ ri.step_by ri.step = ri) ∧
    ((ru.step_by s1).step_by s2 = ru.step_by s2 ∧ ru.step_by ru.step = ru) :=
  ⟨⟨rfl, rfl⟩, ⟨rfl, rfl⟩, ⟨rfl, rfl⟩⟩
